import Mathlib

/-!
Verification of the crt-search utility (src/crt-search.c).

The program is a linear batch pipeline: validate the domain argument,
probe connectivity, run one parameterized query, collect the returned
column values, deduplicate, partition into wildcard / normal identities,
sort each partition with a quadratic exchange sort, and write the result
to stdout and to `<domain>_identities.txt`, with a fatal-error helper
that logs to `script_errors.log` and exits non-zero.

Strings are modelled by Lean `String`; a `Char` stands for a byte of the
C string (all data relevant to the claims is ASCII, and UTF-8 byte order
agrees with codepoint order, so the sign of the byte-wise `strcmp` agrees
with the sign of the codepoint-wise comparison used here).
-/

namespace CrtSearch

/-- Lexicographic three-way comparison of character lists, the model of the
byte loop inside C `strcmp` (sign-faithful: the C library only promises the
sign of the result, and the program only inspects the sign). -/
def cmpChars : List Char → List Char → Int
  | [], [] => 0
  | [], _ :: _ => -1
  | _ :: _, [] => 1
  | x :: xs, y :: ys =>
    if x.toNat < y.toNat then -1
    else if y.toNat < x.toNat then 1
    else cmpChars xs ys

/-- Model of `strcmp` from `<string.h>` as used by the program. -/
def strcmp (a b : String) : Int := cmpChars a.data b.data

/-- Bounded lexicographic comparison, the model of the byte loop inside C
`strncmp` (the empty list plays the role of the NUL terminator). -/
def cmpN : Nat → List Char → List Char → Int
  | 0, _, _ => 0
  | _ + 1, [], [] => 0
  | _ + 1, [], _ :: _ => -1
  | _ + 1, _ :: _, [] => 1
  | n + 1, x :: xs, y :: ys =>
    if x.toNat < y.toNat then -1
    else if y.toNat < x.toNat then 1
    else cmpN n xs ys

/-- Model of `strncmp` from `<string.h>`. -/
def strncmp (a b : String) (n : Nat) : Int := cmpN n a.data b.data

/-- The non-strict order induced by `strcmp`: `a` compares less than or
equal to `b` byte-wise. -/
def strLe (a b : String) : Prop := strcmp a b ≤ 0

instance (a b : String) : Decidable (strLe a b) := by
  unfold strLe; infer_instance

theorem cmpChars_eq_zero_iff : ∀ as bs : List Char, cmpChars as bs = 0 ↔ as = bs := by
  intro as
  induction as with
  | nil => intro bs; cases bs <;> simp [cmpChars]
  | cons x xs ih =>
    intro bs
    cases bs with
    | nil => simp [cmpChars]
    | cons y ys =>
      rcases Nat.lt_trichotomy x.toNat y.toNat with h | h | h
      · have h2 : ¬ y.toNat < x.toNat := by omega
        simp only [cmpChars, if_pos h]
        constructor
        · intro hc; omega
        · intro hc
          injection hc with h1 _
          subst h1; omega
      · have hxy : x = y := Char.ext (UInt32.ext h)
        subst hxy
        simp only [cmpChars, if_neg (by omega : ¬ x.toNat < x.toNat)]
        rw [ih ys]
        constructor
        · intro hc; rw [hc]
        · intro hc; injection hc
      · simp only [cmpChars, if_neg (by omega : ¬ x.toNat < y.toNat), if_pos h]
        constructor
        · intro hc; omega
        · intro hc
          injection hc with h1 _
          subst h1; omega

theorem strcmp_eq_zero_iff (a b : String) : strcmp a b = 0 ↔ a = b := by
  rw [strcmp, cmpChars_eq_zero_iff]
  constructor
  · intro h; exact String.ext h
  · intro h; rw [h]

theorem cmpChars_neg : ∀ as bs : List Char, cmpChars as bs = -(cmpChars bs as) := by
  intro as
  induction as with
  | nil => intro bs; cases bs <;> simp [cmpChars]
  | cons x xs ih =>
    intro bs
    cases bs with
    | nil => simp [cmpChars]
    | cons y ys =>
      rcases Nat.lt_trichotomy x.toNat y.toNat with h | h | h
      · simp [cmpChars, if_pos h, if_neg (by omega : ¬ y.toNat < x.toNat)]
      · simp only [cmpChars, if_neg (by omega : ¬ x.toNat < y.toNat),
          if_neg (by omega : ¬ y.toNat < x.toNat)]
        exact ih ys
      · simp [cmpChars, if_pos h, if_neg (by omega : ¬ x.toNat < y.toNat)]

theorem cmpChars_trans :
    ∀ (as bs cs : List Char), cmpChars as bs ≤ 0 → cmpChars bs cs ≤ 0 →
      cmpChars as cs ≤ 0 := by
  intro as
  induction as with
  | nil =>
    intro bs cs _ _
    cases cs <;> simp [cmpChars]
  | cons x xs ih =>
    intro bs cs hab hbc
    cases bs with
    | nil => simp [cmpChars] at hab
    | cons y ys =>
      cases cs with
      | nil => simp [cmpChars] at hbc
      | cons z zs =>
        simp only [cmpChars] at hab hbc ⊢
        split at hab
        · rename_i hxy
          split at hbc
          · rename_i hyz
            rw [if_pos (by omega : x.toNat < z.toNat)]; omega
          · split at hbc
            · omega
            · rename_i hnyz hnzy
              rw [if_pos (by omega : x.toNat < z.toNat)]; omega
        · split at hab
          · omega
          · rename_i hnxy hnyx
            split at hbc
            · rename_i hyz
              rw [if_pos (by omega : x.toNat < z.toNat)]; omega
            · split at hbc
              · omega
              · rename_i hnyz hnzy
                rw [if_neg (by omega : ¬ x.toNat < z.toNat),
                  if_neg (by omega : ¬ z.toNat < x.toNat)]
                exact ih ys zs hab hbc

theorem strLe_trans {a b c : String} (h1 : strLe a b) (h2 : strLe b c) : strLe a c :=
  cmpChars_trans a.data b.data c.data h1 h2

theorem strLe_of_not_gt {a b : String} (h : ¬ strcmp a b > 0) : strLe a b := by
  show strcmp a b ≤ 0
  omega

theorem strLe_of_gt {a b : String} (h : strcmp a b > 0) : strLe b a := by
  show strcmp b a ≤ 0
  unfold strcmp at h ⊢
  rw [cmpChars_neg b.data a.data]
  omega

/-! ### The sorting routine (`bubble_sort`, src/crt-search.c lines 88-99)

The C function works in place on `char **arr` with nested index loops
`for i in [0, n-1)`, `for j in (i, n)`, swapping `arr[i]` and `arr[j]`
whenever `strcmp(arr[i], arr[j]) > 0`.  The array is modelled as a
`List String`; each loop is modelled with a fuel argument that counts its
remaining iterations (`n - j` resp. `(n-1) - i`), which is exact because
swapping preserves the length. -/

/-- One array swap `tmp = arr[i]; arr[i] = arr[j]; arr[j] = tmp`. -/
def swapL (l : List String) (i j : Nat) : List String :=
  (l.set i (l.getD j "")).set j (l.getD i "")

/-- Inner loop of `bubble_sort`: `for (j; j < arr.length; ++j)` with at most
`fuel` iterations, comparing and conditionally swapping positions `i`, `j`. -/
def innerAux : List String → Nat → Nat → Nat → List String
  | arr, _, _, 0 => arr
  | arr, i, j, fuel + 1 =>
    if j < arr.length then
      innerAux (if strcmp (arr.getD i "") (arr.getD j "") > 0 then swapL arr i j else arr)
        i (j + 1) fuel
    else arr

/-- Inner loop of `bubble_sort` starting at index `j`, running to the end of
the array. -/
def innerLoop (arr : List String) (i j : Nat) : List String :=
  innerAux arr i j (arr.length - j)

/-- Outer loop of `bubble_sort`: `for (i; i < n - 1; ++i)` with at most `fuel`
iterations. -/
def outerAux : List String → Nat → Nat → List String
  | arr, _, 0 => arr
  | arr, i, fuel + 1 =>
    if i + 1 < arr.length then outerAux (innerLoop arr i (i + 1)) (i + 1) fuel
    else arr

/-- Model of `bubble_sort(arr, n)` from src/crt-search.c; the program always
passes `n` equal to the number of stored strings, so `n` is the list length. -/
def bubble_sort (arr : List String) : List String := outerAux arr 0 (arr.length - 1)

/-- Structural description of one inner-loop pass: scanning the tail with the
current value `m` at position `i`, returning the final value at position `i`
and the values left behind at positions `i+1 ..`. -/
def bubbleStep : String → List String → String × List String
  | m, [] => (m, [])
  | m, x :: xs =>
    if strcmp m x > 0 then
      let r := bubbleStep x xs
      (r.1, m :: r.2)
    else
      let r := bubbleStep m xs
      (r.1, x :: r.2)

theorem bubbleStep_length : ∀ (m : String) (t : List String),
    (bubbleStep m t).2.length = t.length := by
  intro m t
  induction t generalizing m with
  | nil => rfl
  | cons x xs ih =>
    simp only [bubbleStep]
    split
    · simp [ih x]
    · simp [ih m]

theorem bubbleStep_perm : ∀ (m : String) (t : List String),
    ((bubbleStep m t).1 :: (bubbleStep m t).2).Perm (m :: t) := by
  intro m t
  induction t generalizing m with
  | nil => simp [bubbleStep]
  | cons x xs ih =>
    simp only [bubbleStep]
    split
    · exact (List.Perm.swap m (bubbleStep x xs).1 (bubbleStep x xs).2).trans ((ih x).cons m)
    · exact ((List.Perm.swap x (bubbleStep m xs).1 (bubbleStep m xs).2).trans
        ((ih m).cons x)).trans (List.Perm.swap m x xs)

theorem bubbleStep_min : ∀ (m : String) (t : List String),
    strLe (bubbleStep m t).1 m ∧ ∀ y ∈ (bubbleStep m t).2, strLe (bubbleStep m t).1 y := by
  intro m t
  induction t generalizing m with
  | nil =>
    refine ⟨?_, ?_⟩
    · show strcmp m m ≤ 0
      rw [(strcmp_eq_zero_iff m m).mpr rfl]
    · intro y hy; simp [bubbleStep] at hy
  | cons x xs ih =>
    simp only [bubbleStep]
    split
    · rename_i hgt
      obtain ⟨h1, h2⟩ := ih x
      refine ⟨strLe_trans h1 (strLe_of_gt hgt), ?_⟩
      intro y hy
      simp only [List.mem_cons] at hy
      rcases hy with rfl | hy
      · exact strLe_trans h1 (strLe_of_gt hgt)
      · exact h2 y hy
    · rename_i hle
      obtain ⟨h1, h2⟩ := ih m
      refine ⟨h1, ?_⟩
      intro y hy
      simp only [List.mem_cons] at hy
      rcases hy with rfl | hy
      · exact strLe_trans h1 (strLe_of_not_gt hle)
      · exact h2 y hy

theorem getD_append_len : ∀ (A : List String) (b : String) (C : List String),
    (A ++ b :: C).getD A.length "" = b := by
  intro A
  induction A with
  | nil => intro b C; rfl
  | cons a A ih =>
    intro b C
    show (A ++ b :: C).getD A.length "" = b
    exact ih b C

theorem set_append_len : ∀ (A : List String) (b : String) (C : List String) (v : String),
    (A ++ b :: C).set A.length v = A ++ v :: C := by
  intro A
  induction A with
  | nil => intro b C v; rfl
  | cons a A ih =>
    intro b C v
    show a :: (A ++ b :: C).set A.length v = a :: (A ++ v :: C)
    rw [ih b C v]

/-- One full pass of the inner loop, in terms of `bubbleStep`: with `P` the
untouched prefix (`i = P.length`), `m` the current value at position `i`, `D`
the already-scanned values at positions `i+1 .. j-1`, and `T` the values
from position `j` on. -/
theorem innerAux_bridge : ∀ (T : List String) (m : String) (P D : List String),
    innerAux (P ++ m :: (D ++ T)) P.length (P.length + 1 + D.length) T.length
      = P ++ (bubbleStep m T).1 :: (D ++ (bubbleStep m T).2) := by
  intro T
  induction T with
  | nil => intro m P D; simp [innerAux, bubbleStep]
  | cons x xs ih =>
    intro m P D
    have hjlt : P.length + 1 + D.length < (P ++ m :: (D ++ x :: xs)).length := by
      simp; omega
    have hgi : (P ++ m :: (D ++ x :: xs)).getD P.length "" = m := getD_append_len P m _
    have harr : P ++ m :: (D ++ x :: xs) = (P ++ m :: D) ++ x :: xs := by simp
    have hlen : (P ++ m :: D).length = P.length + 1 + D.length := by simp; omega
    have hgj : (P ++ m :: (D ++ x :: xs)).getD (P.length + 1 + D.length) "" = x := by
      rw [harr, ← hlen, getD_append_len]
    simp only [List.length_cons, innerAux, if_pos hjlt, hgi, hgj]
    by_cases hgt : strcmp m x > 0
    · rw [if_pos hgt]
      have hswap : swapL (P ++ m :: (D ++ x :: xs)) P.length (P.length + 1 + D.length)
          = P ++ x :: ((D ++ [m]) ++ xs) := by
        unfold swapL
        rw [hgj, hgi, set_append_len]
        have h2 : P ++ x :: (D ++ x :: xs) = (P ++ x :: D) ++ x :: xs := by simp
        have hlen2 : (P ++ x :: D).length = P.length + 1 + D.length := by simp; omega
        rw [h2, ← hlen2, set_append_len]
        simp
      rw [hswap]
      have hidx : P.length + 1 + D.length + 1 = P.length + 1 + (D ++ [m]).length := by
        simp; omega
      rw [hidx, ih x P (D ++ [m])]
      simp only [bubbleStep, if_pos hgt]
      simp
    · rw [if_neg hgt]
      have hre : P ++ m :: (D ++ x :: xs) = P ++ m :: ((D ++ [x]) ++ xs) := by simp
      have hidx : P.length + 1 + D.length + 1 = P.length + 1 + (D ++ [x]).length := by
        simp; omega
      rw [hre, hidx, ih m P (D ++ [x])]
      simp only [bubbleStep, if_neg hgt]
      simp

theorem innerLoop_pass (P : List String) (m : String) (T : List String) :
    innerLoop (P ++ m :: T) P.length (P.length + 1)
      = P ++ (bubbleStep m T).1 :: (bubbleStep m T).2 := by
  have h := innerAux_bridge T m P []
  unfold innerLoop
  have hl : (P ++ m :: T).length - (P.length + 1) = T.length := by
    simp
    omega
  rw [hl]
  simpa using h

theorem outerAux_sorts : ∀ (fuel : Nat) (P T : List String),
    fuel = T.length - 1 →
    List.Pairwise strLe P →
    (∀ p ∈ P, ∀ t ∈ T, strLe p t) →
    ∃ T2, outerAux (P ++ T) P.length fuel = P ++ T2 ∧ T2.Perm T ∧
      List.Pairwise strLe (P ++ T2) := by
  intro fuel
  induction fuel with
  | zero =>
    intro P T hfuel hP hPT
    refine ⟨T, rfl, List.Perm.refl T, ?_⟩
    rw [List.pairwise_append]
    refine ⟨hP, ?_, fun a ha b hb => hPT a ha b hb⟩
    cases T with
    | nil => constructor
    | cons t ts =>
      cases ts with
      | nil => simp
      | cons u us => simp at hfuel
  | succ k ih =>
    intro P T hfuel hP hPT
    have hTlen : T.length = k + 2 := by omega
    obtain ⟨m, rest, rfl⟩ : ∃ m rest, T = m :: rest := by
      cases T with
      | nil => simp at hTlen
      | cons m rest => exact ⟨m, rest, rfl⟩
    simp only [List.length_cons] at hTlen
    have hguard : P.length + 1 < (P ++ m :: rest).length := by simp; omega
    simp only [outerAux, if_pos hguard]
    rw [innerLoop_pass]
    have hperm := bubbleStep_perm m rest
    have hmin := bubbleStep_min m rest
    have hfe : P ++ (bubbleStep m rest).1 :: (bubbleStep m rest).2
        = (P ++ [(bubbleStep m rest).1]) ++ (bubbleStep m rest).2 := by simp
    have hidx : P.length + 1 = (P ++ [(bubbleStep m rest).1]).length := by simp
    rw [hfe, hidx]
    have hr2len : k = (bubbleStep m rest).2.length - 1 := by
      have := bubbleStep_length m rest
      omega
    have hP2 : List.Pairwise strLe (P ++ [(bubbleStep m rest).1]) := by
      rw [List.pairwise_append]
      refine ⟨hP, by simp, ?_⟩
      intro a ha b hb
      simp only [List.mem_singleton] at hb
      subst hb
      have hmem : (bubbleStep m rest).1 ∈ m :: rest :=
        hperm.mem_iff.mp (List.mem_cons_self _ _)
      exact hPT a ha _ hmem
    have hPT2 : ∀ p ∈ P ++ [(bubbleStep m rest).1], ∀ t ∈ (bubbleStep m rest).2,
        strLe p t := by
      intro p hp t ht
      rcases List.mem_append.mp hp with hp | hp
      · have hmem : t ∈ m :: rest := hperm.mem_iff.mp (List.mem_cons_of_mem _ ht)
        exact hPT p hp t hmem
      · simp only [List.mem_singleton] at hp
        subst hp
        exact hmin.2 t ht
    obtain ⟨T2, heq, hpermT2, hsorted⟩ := ih (P ++ [(bubbleStep m rest).1])
      (bubbleStep m rest).2 hr2len hP2 hPT2
    refine ⟨(bubbleStep m rest).1 :: T2, ?_, ?_, ?_⟩
    · rw [heq]; simp
    · exact (hpermT2.cons (bubbleStep m rest).1).trans hperm
    · rw [show P ++ (bubbleStep m rest).1 :: T2 = (P ++ [(bubbleStep m rest).1]) ++ T2
        by simp]
      exact hsorted

/-- Claim C3: `bubble_sort` returns a permutation of its input (hence the same
multiset of strings) that is non-decreasing under the ascending byte-wise
string comparison `strLe` (induced by `strcmp`).  Applied by the program to
each of the two partitions, so each partition after sorting is sorted
byte-wise and holds exactly the multiset of elements it held before. -/
theorem C3_bubble_sort_perm_sorted (arr : List String) :
    (bubble_sort arr).Perm arr ∧ List.Pairwise strLe (bubble_sort arr) := by
  obtain ⟨T2, heq, hperm, hsorted⟩ :=
    outerAux_sorts (arr.length - 1) [] arr rfl List.Pairwise.nil (by simp)
  have : bubble_sort arr = T2 := by
    unfold bubble_sort
    simpa using heq
  rw [this]
  exact ⟨hperm, by simpa using hsorted⟩

/-! ### Deduplication (src/crt-search.c lines 166-177)

The C loop scans `raw` in order; for each element it scans the `unique`
array already built (`strcmp(raw[i], unique[j]) == 0`) and appends the
element at the end of `unique` only when no match was found. -/

/-- The linear duplicate scan: `for j < uniq_cnt: if strcmp(x, unique[j]) == 0`. -/
def inSet (x : String) (acc : List String) : Bool :=
  acc.any (fun u => strcmp x u == 0)

/-- The deduplication loop, with `acc` the `unique` array built so far. -/
def dedupLoop (acc : List String) : List String → List String
  | [] => acc
  | x :: xs => if inSet x acc then dedupLoop acc xs else dedupLoop (acc ++ [x]) xs

/-- The deduplication step of `main`: `unique` as built from `raw`. -/
def dedup (raw : List String) : List String := dedupLoop [] raw

theorem inSet_iff_mem (x : String) (acc : List String) : inSet x acc = true ↔ x ∈ acc := by
  unfold inSet
  rw [List.any_eq_true]
  constructor
  · rintro ⟨u, hu, he⟩
    have : strcmp x u = 0 := by simpa using he
    rw [(strcmp_eq_zero_iff x u).mp this]
    exact hu
  · intro hx
    exact ⟨x, hx, by simp [(strcmp_eq_zero_iff x x).mpr rfl]⟩

/-- The new elements appended to an accumulator `acc` by the dedup loop. -/
def extractNew (acc : List String) : List String → List String
  | [] => []
  | x :: xs => if x ∈ acc then extractNew acc xs else x :: extractNew (acc ++ [x]) xs

theorem dedupLoop_eq_append : ∀ (l acc : List String),
    dedupLoop acc l = acc ++ extractNew acc l := by
  intro l
  induction l with
  | nil => intro acc; simp [dedupLoop, extractNew]
  | cons x xs ih =>
    intro acc
    simp only [dedupLoop, extractNew]
    by_cases hx : x ∈ acc
    · rw [if_pos ((inSet_iff_mem x acc).mpr hx), if_pos hx, ih acc]
    · rw [if_neg (fun hc => hx ((inSet_iff_mem x acc).mp hc)), if_neg hx, ih (acc ++ [x])]
      simp

theorem extractNew_mem : ∀ (l acc : List String) (z : String),
    z ∈ extractNew acc l ↔ z ∉ acc ∧ z ∈ l := by
  intro l
  induction l with
  | nil => intro acc z; simp [extractNew]
  | cons x xs ih =>
    intro acc z
    simp only [extractNew]
    by_cases hx : x ∈ acc
    · rw [if_pos hx, ih acc z]
      constructor
      · rintro ⟨h1, h2⟩; exact ⟨h1, List.mem_cons_of_mem x h2⟩
      · rintro ⟨h1, h2⟩
        rcases List.mem_cons.mp h2 with rfl | h2
        · exact absurd hx h1
        · exact ⟨h1, h2⟩
    · rw [if_neg hx]
      constructor
      · intro hz
        rcases List.mem_cons.mp hz with rfl | hz
        · exact ⟨hx, List.mem_cons_self _ _⟩
        · obtain ⟨h1, h2⟩ := (ih (acc ++ [x]) z).mp hz
          simp only [List.mem_append, List.mem_singleton] at h1
          push_neg at h1
          exact ⟨h1.1, List.mem_cons_of_mem x h2⟩
      · rintro ⟨h1, h2⟩
        rcases List.mem_cons.mp h2 with rfl | h2
        · exact List.mem_cons_self _ _
        · by_cases hzx : z = x
          · subst hzx; exact List.mem_cons_self _ _
          · refine List.mem_cons_of_mem x ((ih (acc ++ [x]) z).mpr ⟨?_, h2⟩)
            simp only [List.mem_append, List.mem_singleton]
            push_neg
            exact ⟨h1, hzx⟩

theorem extractNew_nodup : ∀ (l acc : List String), (extractNew acc l).Nodup := by
  intro l
  induction l with
  | nil => intro acc; simp [extractNew]
  | cons x xs ih =>
    intro acc
    simp only [extractNew]
    by_cases hx : x ∈ acc
    · rw [if_pos hx]; exact ih acc
    · rw [if_neg hx]
      refine List.Nodup.cons ?_ (ih (acc ++ [x]))
      intro hc
      have := ((extractNew_mem xs (acc ++ [x]) x).mp hc).1
      simp at this

theorem extractNew_indexOf : ∀ (l acc : List String),
    List.Pairwise (fun a b => l.indexOf a < l.indexOf b) (extractNew acc l) := by
  intro l
  induction l with
  | nil => intro acc; simp [extractNew]
  | cons x xs ih =>
    intro acc
    simp only [extractNew]
    by_cases hx : x ∈ acc
    · rw [if_pos hx]
      refine (ih acc).imp_of_mem ?_
      intro a b ha hb hab
      have hax : x ≠ a := fun hc => ((extractNew_mem xs acc a).mp ha).1 (hc ▸ hx)
      have hbx : x ≠ b := fun hc => ((extractNew_mem xs acc b).mp hb).1 (hc ▸ hx)
      rw [List.indexOf_cons_ne _ hax, List.indexOf_cons_ne _ hbx]
      omega
    · rw [if_neg hx]
      refine List.Pairwise.cons ?_ ?_
      · intro b hb
        have hbx : x ≠ b := by
          intro hc
          exact ((extractNew_mem xs (acc ++ [x]) b).mp hb).1 (by simp [hc])
        rw [List.indexOf_cons_self, List.indexOf_cons_ne _ hbx]
        omega
      · refine (ih (acc ++ [x])).imp_of_mem ?_
        intro a b ha hb hab
        have hax : x ≠ a := by
          intro hc
          exact ((extractNew_mem xs (acc ++ [x]) a).mp ha).1 (by simp [hc])
        have hbx : x ≠ b := by
          intro hc
          exact ((extractNew_mem xs (acc ++ [x]) b).mp hb).1 (by simp [hc])
        rw [List.indexOf_cons_ne _ hax, List.indexOf_cons_ne _ hbx]
        omega

/-- Claim C1: deduplication keeps each distinct input value exactly once
(membership is preserved, the output has no duplicates, every input value
occurs exactly once in the output), the output length is the number of
distinct input values, and the output lists values in the order of their
first occurrence in the input (`List.indexOf` is the first-occurrence
position). -/
theorem C1_dedup_spec (raw : List String) :
    (∀ x, x ∈ dedup raw ↔ x ∈ raw) ∧
    (dedup raw).Nodup ∧
    (∀ x ∈ raw, (dedup raw).count x = 1) ∧
    (dedup raw).length = raw.toFinset.card ∧
    List.Pairwise (fun a b => raw.indexOf a < raw.indexOf b) (dedup raw) := by
  have hdef : dedup raw = extractNew [] raw := dedupLoop_eq_append raw []
  have hmem : ∀ x, x ∈ dedup raw ↔ x ∈ raw := by
    intro x
    rw [hdef, extractNew_mem]
    simp
  have hnodup : (dedup raw).Nodup := by
    rw [hdef]; exact extractNew_nodup raw []
  refine ⟨hmem, hnodup, ?_, ?_, ?_⟩
  · intro x hx
    have h1 : (dedup raw).count x ≤ 1 := List.nodup_iff_count_le_one.mp hnodup x
    have h2 : 0 < (dedup raw).count x := List.count_pos_iff.mpr ((hmem x).mpr hx)
    omega
  · have hfin : (dedup raw).toFinset = raw.toFinset := by
      ext x
      simp only [List.mem_toFinset]
      exact hmem x
    rw [← hfin, List.toFinset_card_of_nodup hnodup]
  · rw [hdef]
    exact extractNew_indexOf raw []

/-! ### Partition into wildcard / normal identities (src/crt-search.c lines 179-189) -/

/-- The wildcard test of the partition loop:
`strncmp(unique[i], "*.", 2) == 0`. -/
def isWildcard (s : String) : Bool := strncmp s "*." 2 == 0

/-- `isWildcard` holds exactly when the first two characters are the literal
prefix `*.`. -/
theorem isWildcard_iff (s : String) :
    isWildcard s = true ↔ ∃ r, s.data = '*' :: '.' :: r := by
  unfold isWildcard strncmp
  rw [show "*.".data = ['*', '.'] from rfl]
  cases hd : s.data with
  | nil => simp [cmpN]
  | cons c cs =>
    cases cs with
    | nil =>
      constructor
      · intro hc
        exfalso
        simp only [cmpN] at hc
        split at hc
        · simp at hc
        · split at hc
          · simp at hc
          · simp [cmpN] at hc
      · rintro ⟨r, hr⟩
        simp at hr
    | cons d ds =>
      constructor
      · intro hc
        simp only [cmpN] at hc
        split at hc
        · simp at hc
        · split at hc
          · simp at hc
          · rename_i h1 h2
            have hc42 : c = '*' :=
              Char.ext (UInt32.ext (show c.toNat = Char.toNat '*' by omega))
            subst hc42
            split at hc
            · simp at hc
            · split at hc
              · simp at hc
              · rename_i h3 h4
                have hd46 : d = '.' :=
                  Char.ext (UInt32.ext (show d.toNat = Char.toNat '.' by omega))
                subst hd46
                exact ⟨ds, rfl⟩
      · rintro ⟨r, hr⟩
        obtain ⟨h1, h2⟩ : c = '*' ∧ d :: ds = '.' :: r := by
          injection hr with a1 b1
          exact ⟨a1, b1⟩
        obtain ⟨h3, h4⟩ : d = '.' ∧ ds = r := by
          injection h2 with a2 b2
          exact ⟨a2, b2⟩
        subst h1; subst h3; subst h4
        rfl

/-- The partition loop of `main`, with `wild` and `norm` the arrays built so
far; each element of `unique` is appended to exactly one of them. -/
def partLoop (wild norm : List String) : List String → List String × List String
  | [] => (wild, norm)
  | x :: xs =>
    if isWildcard x then partLoop (wild ++ [x]) norm xs
    else partLoop wild (norm ++ [x]) xs

/-- The partition step of `main` applied to the deduplicated sequence. -/
def partitionIds (unique : List String) : List String × List String :=
  partLoop [] [] unique

theorem partLoop_eq : ∀ (l wild norm : List String),
    partLoop wild norm l
      = (wild ++ l.filter isWildcard, norm ++ l.filter (fun x => ! isWildcard x)) := by
  intro l
  induction l with
  | nil => intro wild norm; simp [partLoop]
  | cons x xs ih =>
    intro wild norm
    by_cases hx : isWildcard x
    · simp only [partLoop, if_pos hx, ih, List.filter_cons, hx]
      simp
    · have hx2 : isWildcard x = false := by simpa using hx
      simp only [partLoop, if_neg hx, ih, List.filter_cons, hx2]
      simp

theorem partitionIds_eq (l : List String) :
    partitionIds l = (l.filter isWildcard, l.filter (fun x => ! isWildcard x)) := by
  unfold partitionIds
  rw [partLoop_eq]
  simp

/-- Claim C2: the partition step puts exactly the identities whose first two
characters are the literal prefix `*.` into the wildcard partition and all
others into the normal partition, preserves the relative order of the input
within each partition (each partition is a sublist of the input), and the
union of the two partitions as sets is the input set. -/
theorem C2_partition_spec (unique : List String) :
    (∀ x, x ∈ (partitionIds unique).1 ↔ x ∈ unique ∧ ∃ r, x.data = '*' :: '.' :: r) ∧
    (∀ x, x ∈ (partitionIds unique).2 ↔ x ∈ unique ∧ ¬ ∃ r, x.data = '*' :: '.' :: r) ∧
    (partitionIds unique).1.Sublist unique ∧
    (partitionIds unique).2.Sublist unique ∧
    (∀ x, x ∈ unique ↔ x ∈ (partitionIds unique).1 ∨ x ∈ (partitionIds unique).2) := by
  rw [partitionIds_eq]
  refine ⟨?_, ?_, List.filter_sublist unique, List.filter_sublist unique, ?_⟩
  · intro x
    rw [List.mem_filter, isWildcard_iff]
  · intro x
    rw [List.mem_filter]
    simp only [Bool.not_eq_true', ← isWildcard_iff]
    constructor
    · rintro ⟨h1, h2⟩
      exact ⟨h1, by simp [h2]⟩
    · rintro ⟨h1, h2⟩
      exact ⟨h1, by simpa using h2⟩
  · intro x
    constructor
    · intro hx
      by_cases hw : isWildcard x
      · exact Or.inl (List.mem_filter.mpr ⟨hx, hw⟩)
      · exact Or.inr (List.mem_filter.mpr ⟨hx, by simpa using hw⟩)
    · rintro (hx | hx) <;> exact (List.mem_filter.mp hx).1

/-! ### The processing pipeline and the collection step -/

/-- The full in-memory processing pipeline of `main` (lines 166-206):
deduplicate, partition, sort each partition, wildcards before normals. -/
def pipeline (raw : List String) : List String :=
  bubble_sort (partitionIds (dedup raw)).1 ++ bubble_sort (partitionIds (dedup raw)).2

/-- Claim C4: on the concrete raw sequence of the specification's end-to-end
example, the pipeline produces exactly the expected output sequence. -/
theorem C4_end_to_end_example :
    pipeline ["*.b.com", "a.com", "a.com", "*.a.com", "b.com"]
      = ["*.a.com", "*.b.com", "a.com", "b.com"] := by
  decide

/-- `MAX_IDENTITIES` from src/crt-search.c line 17. -/
def MAX_IDENTITIES : Nat := 1000000

/-- The collection loop of `main` (lines 153-162): scan the result rows in
order while `raw_cnt < MAX_IDENTITIES`, storing each non-null (`val`) and
non-empty (`*val`) column value.  A returned row is `none` for a null
pointer. -/
def collectLoop : List (Option String) → Nat → List String
  | [], _ => []
  | r :: rs, cnt =>
    if cnt < MAX_IDENTITIES then
      match r with
      | some v => if v = "" then collectLoop rs cnt else v :: collectLoop rs (cnt + 1)
      | none => collectLoop rs cnt
    else []

/-- The raw sequence materialized from the query result rows. -/
def collectRows (rows : List (Option String)) : List String := collectLoop rows 0

/-- The non-null, non-empty column values in row order. -/
def nonNullNonEmpty (rows : List (Option String)) : List String :=
  (rows.filterMap id).filter (fun v => ! (v == ""))

theorem collectLoop_eq : ∀ (rows : List (Option String)) (cnt : Nat),
    cnt ≤ MAX_IDENTITIES →
    collectLoop rows cnt = (nonNullNonEmpty rows).take (MAX_IDENTITIES - cnt) := by
  intro rows
  induction rows with
  | nil => intro cnt _; simp [collectLoop, nonNullNonEmpty]
  | cons r rs ih =>
    intro cnt hcnt
    by_cases hlt : cnt < MAX_IDENTITIES
    · cases r with
      | none =>
        simp only [collectLoop, if_pos hlt]
        rw [ih cnt hcnt]
        simp [nonNullNonEmpty]
      | some v =>
        by_cases hv : v = ""
        · subst hv
          simp only [collectLoop, if_pos hlt, if_pos rfl]
          rw [ih cnt hcnt]
          simp [nonNullNonEmpty]
        · simp only [collectLoop, if_pos hlt, if_neg hv]
          rw [ih (cnt + 1) (by omega)]
          have hv2 : (v == "") = false := by simpa using hv
          simp only [nonNullNonEmpty, List.filterMap_cons, id, List.filter_cons, hv2,
            Bool.not_false]
          rw [show MAX_IDENTITIES - cnt = (MAX_IDENTITIES - (cnt + 1)) + 1 by omega]
          simp [List.take_succ_cons]
    · have hc0 : MAX_IDENTITIES - cnt = 0 := by omega
      simp [collectLoop, if_neg hlt, hc0]

/-- Claim C8: the collection step materializes exactly the non-null,
non-empty values of the single returned column in row order, truncated to the
first `MAX_IDENTITIES` of them (rows beyond the cap are dropped without
error), so the raw sequence never exceeds 1,000,000 entries. -/
theorem C8_collect_spec (rows : List (Option String)) :
    collectRows rows = (nonNullNonEmpty rows).take MAX_IDENTITIES ∧
    (collectRows rows).length ≤ 1000000 := by
  have h := collectLoop_eq rows 0 (by omega)
  simp only [Nat.sub_zero] at h
  refine ⟨h, ?_⟩
  rw [show (1000000 : Nat) = MAX_IDENTITIES from rfl]
  unfold collectRows
  rw [h, List.length_take]
  omega

/-! ### Domain validation (src/crt-search.c lines 41-70)

`validate_domain` checks, in order: `strlen` (byte length) in 1..255;
`strpbrk(domain, "'\";` + backtick + `")` for the dangerous characters; the
POSIX regex `^[a-zA-Z0-9.-]*$`.  Each failing check calls `fatal_error`
with the shown message; the model returns the message instead, and `main`
routes it to the fatal path.  (`regcomp` of the fixed, valid pattern cannot
fail, so that branch is not modelled.)  The snprintf of the two messages
embedding the domain never truncates: at that point the length check has
bounded the domain by 255 bytes, well within the 512-byte buffer. -/

/-- The dangerous-character set of the `strpbrk` check: single quote (39),
double quote (34), semicolon (59), backtick (96). -/
def dangerousChar (c : Char) : Bool :=
  decide (c.toNat = 39 ∨ c.toNat = 34 ∨ c.toNat = 59 ∨ c.toNat = 96)

/-- The character class `[a-zA-Z0-9.-]` of the validation regex. -/
def allowedChar (c : Char) : Bool :=
  decide (('a' ≤ c ∧ c ≤ 'z') ∨ ('A' ≤ c ∧ c ≤ 'Z') ∨ ('0' ≤ c ∧ c ≤ '9')
    ∨ c = '.' ∨ c = '-')

/-- Model of `validate_domain`; `Except.error msg` stands for the call to
`fatal_error(msg)`. -/
def validate_domain (domain : String) : Except String Unit :=
  if domain.utf8ByteSize = 0 ∨ domain.utf8ByteSize > 255 then
    Except.error "Domain length must be 1-255 characters"
  else if domain.data.any dangerousChar then
    Except.error ("Domain '" ++ domain
      ++ "' contains invalid characters (quotes, semicolon, backtick)")
  else if ! domain.data.all allowedChar then
    Except.error ("Domain '" ++ domain ++ "' must contain only alphanumeric, dot or hyphen")
  else Except.ok ()

/-- The output path built by `snprintf(output_file, sizeof(output_file),
"%s_identities.txt", domain)` (line 111).  The 276-byte buffer cannot
truncate for any domain that later passes validation (at most 255 + 15
bytes), and the name is only used after validation succeeds, so the
truncation branch of `snprintf` is not modelled. -/
def outputFileName (domain : String) : String := domain ++ "_identities.txt"

/-- The `strrchr(output_file, '/')` test guarding the directory check
(line 118). -/
def hasSlash (s : String) : Bool := s.data.any (fun c => c == '/')

/-! ### The observable behaviour of `main` (src/crt-search.c lines 102-216)

`main` is modelled as a pure function of the domain argument and an
environment recording the outcome of each external interaction, returning
the trace of observable events and the process exit code. -/

/-- Outcomes of the external interactions of one run: the `strftime`
timestamp, whether `fopen(LOG_FILE, "a")` succeeds, the outcome and error
text of the two `PQconnectdb` calls, the directory writability check, the
query outcome, the returned rows (`none` is a null column value), and
whether `fopen(output_file, "w")` succeeds. -/
structure Env where
  ts : String
  logOk : Bool
  conn1Ok : Bool
  conn1Err : String
  dirOk : Bool
  conn2Ok : Bool
  conn2Err : String
  queryOk : Bool
  queryErr : String
  rows : List (Option String)
  outOk : Bool

/-- Observable events of a run. -/
inductive Ev where
  | stderrLine (s : String)
  | logOpen
  | logAppend (s : String)
  | netConnect
  | netQuery
  | dirCheck
  | fileCreate (path : String)
  | fileWrite (path : String) (line : String)
  | stdoutLine (s : String)
  | stdoutMsg (s : String)
  deriving DecidableEq

/-- The log / stderr line format of `fatal_error`:
`[<YYYY-MM-DD HH:MM:SS>] ERROR: <message>`. -/
def errEntry (ts msg : String) : String := "[" ++ ts ++ "] ERROR: " ++ msg

/-- The observable behaviour of `fatal_error(msg)` (lines 22-37): the entry
goes to stderr, the log file is opened for append, and the entry is written
to it when the open succeeded; the process then exits with `EXIT_FAILURE`. -/
def fatalEvents (env : Env) (msg : String) : List Ev :=
  [Ev.stderrLine (errEntry env.ts msg), Ev.logOpen]
    ++ (if env.logOk then [Ev.logAppend (errEntry env.ts msg)] else [])

/-- The output phase (lines 195-209): `fopen(output_file, "w")`, fatal
`Cannot create output file` on failure; otherwise each wildcard identity and
then each normal identity is printed to stdout and written to the file, one
per line, and a confirmation message is printed to stdout. -/
def writePhase (env : Env) (file : String) (wild norm : List String) : List Ev × Nat :=
  if env.outOk then
    ([Ev.fileCreate file]
      ++ (wild ++ norm).flatMap (fun s => [Ev.stdoutLine s, Ev.fileWrite file s])
      ++ [Ev.stdoutMsg ("Output saved to " ++ file)], 0)
  else (fatalEvents env "Cannot create output file", 1)

/-- The query-and-process phase (lines 130-209): second `PQconnectdb`,
`PQexecParams`, collection of the rows, deduplication, partition, the two
sorts, and the output phase. -/
def queryPhase (env : Env) (file : String) : List Ev × Nat :=
  if env.conn2Ok then
    if env.queryOk then
      let w := writePhase env file
        (bubble_sort (partitionIds (dedup (collectRows env.rows))).1)
        (bubble_sort (partitionIds (dedup (collectRows env.rows))).2)
      ([Ev.netConnect, Ev.netQuery] ++ w.1, w.2)
    else ([Ev.netConnect, Ev.netQuery] ++ fatalEvents env env.queryErr, 1)
  else ([Ev.netConnect] ++ fatalEvents env env.conn2Err, 1)

/-- The whole of `main` after the `argc` check: build the output path,
validate, probe connectivity, run the directory check when the path has a
directory component, then query, process and write. -/
def runMain (env : Env) (domain : String) : List Ev × Nat :=
  match validate_domain domain with
  | Except.error msg => (fatalEvents env msg, 1)
  | Except.ok _ =>
    if env.conn1Ok then
      if hasSlash (outputFileName domain) then
        if env.dirOk then
          ([Ev.netConnect, Ev.dirCheck] ++ (queryPhase env (outputFileName domain)).1,
            (queryPhase env (outputFileName domain)).2)
        else ([Ev.netConnect, Ev.dirCheck]
          ++ fatalEvents env "Output directory is not writable", 1)
      else ([Ev.netConnect] ++ (queryPhase env (outputFileName domain)).1,
        (queryPhase env (outputFileName domain)).2)
    else ([Ev.netConnect] ++ fatalEvents env env.conn1Err, 1)

/-- The identity lines printed to stdout, in order. -/
def stdoutLines (tr : List Ev) : List String :=
  tr.filterMap (fun e => match e with | Ev.stdoutLine s => some s | _ => none)

/-- The identity lines written to the output file, in order. -/
def fileLines (tr : List Ev) : List String :=
  tr.filterMap (fun e => match e with | Ev.fileWrite _ s => some s | _ => none)

/-- Network I/O events. -/
def isNetworkEv : Ev → Bool
  | Ev.netConnect => true
  | Ev.netQuery => true
  | _ => false

/-- File I/O events: any open of, or write to, a file (the error log or the
output file).  The `stat`/`access` directory metadata check is not a file
open or write. -/
def isFileIOEv : Ev → Bool
  | Ev.logOpen => true
  | Ev.logAppend _ => true
  | Ev.fileCreate _ => true
  | Ev.fileWrite _ _ => true
  | _ => false

/-- File I/O on the output file specifically. -/
def isOutputFileEv : Ev → Bool
  | Ev.fileCreate _ => true
  | Ev.fileWrite _ _ => true
  | _ => false

theorem stdoutLines_append (a b : List Ev) :
    stdoutLines (a ++ b) = stdoutLines a ++ stdoutLines b :=
  List.filterMap_append a b _

theorem fileLines_append (a b : List Ev) :
    fileLines (a ++ b) = fileLines a ++ fileLines b :=
  List.filterMap_append a b _

theorem stdoutLines_pairs (file : String) : ∀ ls : List String,
    stdoutLines (ls.flatMap (fun s => [Ev.stdoutLine s, Ev.fileWrite file s])) = ls := by
  intro ls
  induction ls with
  | nil => rfl
  | cons x xs ih =>
    rw [List.flatMap_cons, stdoutLines_append, ih]
    rfl

theorem fileLines_pairs (file : String) : ∀ ls : List String,
    fileLines (ls.flatMap (fun s => [Ev.stdoutLine s, Ev.fileWrite file s])) = ls := by
  intro ls
  induction ls with
  | nil => rfl
  | cons x xs ih =>
    rw [List.flatMap_cons, fileLines_append, ih]
    rfl

theorem stdoutLines_fatal (env : Env) (msg : String) :
    stdoutLines (fatalEvents env msg) = [] := by
  unfold fatalEvents stdoutLines
  cases h : env.logOk <;> simp

theorem fileLines_fatal (env : Env) (msg : String) :
    fileLines (fatalEvents env msg) = [] := by
  unfold fatalEvents fileLines
  cases h : env.logOk <;> simp

/-- Claim C5: the output writer sends every wildcard identity, then every
normal identity, one per line and in the given (sorted) order, identically
to standard output and to the output file; when the output file cannot be
created the process exits non-zero and no identity line reaches either
destination. -/
theorem C5_output_writer (env : Env) (file : String) (wild norm : List String) :
    stdoutLines (writePhase env file wild norm).1
        = (if env.outOk then wild ++ norm else []) ∧
    fileLines (writePhase env file wild norm).1
        = (if env.outOk then wild ++ norm else []) ∧
    (writePhase env file wild norm).2 = (if env.outOk then 0 else 1) := by
  cases h : env.outOk with
  | true =>
    refine ⟨?_, ?_, ?_⟩ <;> simp only [writePhase, h, if_true]
    · rw [stdoutLines_append, stdoutLines_append, stdoutLines_pairs]
      simp [stdoutLines]
    · rw [fileLines_append, fileLines_append, fileLines_pairs]
      simp [fileLines]
  | false =>
    refine ⟨?_, ?_, ?_⟩ <;> simp only [writePhase, h, Bool.false_eq_true, if_false]
    · exact stdoutLines_fatal env _
    · exact fileLines_fatal env _

theorem mem_fatalEvents {env : Env} {msg : String} {e : Ev}
    (he : e ∈ fatalEvents env msg) :
    e = Ev.stderrLine (errEntry env.ts msg) ∨ e = Ev.logOpen
      ∨ e = Ev.logAppend (errEntry env.ts msg) := by
  unfold fatalEvents at he
  cases hl : env.logOk
  · rw [hl] at he
    simp at he
    tauto
  · rw [hl] at he
    simp at he
    tauto

/-- A domain that violates the character-set or length rule of the
specification: empty, longer than 255 bytes, or containing a character
outside `[a-zA-Z0-9.-]` (which covers quote, double quote, semicolon and
backtick). -/
def violatesRules (d : String) : Prop :=
  d.utf8ByteSize = 0 ∨ d.utf8ByteSize > 255 ∨ ∃ c ∈ d.data, allowedChar c = false

theorem validate_error_of_violates {d : String} (h : violatesRules d) :
    ∃ msg, validate_domain d = Except.error msg := by
  unfold validate_domain
  by_cases h1 : d.utf8ByteSize = 0 ∨ d.utf8ByteSize > 255
  · rw [if_pos h1]
    exact ⟨_, rfl⟩
  · rw [if_neg h1]
    by_cases h2 : d.data.any dangerousChar = true
    · rw [if_pos h2]
      exact ⟨_, rfl⟩
    · rw [if_neg h2]
      have hex : ∃ c ∈ d.data, allowedChar c = false := by
        rcases h with h | h | h
        · exact absurd (Or.inl h) h1
        · exact absurd (Or.inr h) h1
        · exact h
      have hall : d.data.all allowedChar = false := by
        rw [List.all_eq_false]
        obtain ⟨c, hc1, hc2⟩ := hex
        exact ⟨c, hc1, by simp [hc2]⟩
      rw [hall]
      exact ⟨_, rfl⟩

/-- A fixed, fully successful environment used to instantiate theorems with
hypotheses at concrete inputs. -/
def envDefault : Env :=
  ⟨"2026-01-01 00:00:00", true, true, "", true, true, "", true, "", [], true⟩

/-- Counterexample to claim C6 as stated: for the domain `;`, which violates
the character-set rule, the run's event trace does contain file I/O — the
fatal-error helper opens and appends to the error log — so it is not true
that no file I/O occurs. -/
theorem C6_counterexample :
    (∃ c ∈ (";" : String).data, allowedChar c = false) ∧
    (runMain envDefault ";").2 ≠ 0 ∧
    (runMain envDefault ";").1.any isFileIOEv = true := by
  refine ⟨⟨';', by decide, by decide⟩, by decide, by decide⟩

/-- Claim C6 (amended): for every domain violating the character-set or
length rule, the program rejects it and exits non-zero, no network I/O
occurs, no output-file I/O occurs, and the only file I/O is the error-log
open/append performed by the fatal-error helper. -/
theorem C6_amended_reject (env : Env) (d : String) (h : violatesRules d) :
    (runMain env d).2 ≠ 0 ∧
    (∀ e ∈ (runMain env d).1, isNetworkEv e = false) ∧
    (∀ e ∈ (runMain env d).1, isOutputFileEv e = false) ∧
    (∀ e ∈ (runMain env d).1, isFileIOEv e = true →
      e = Ev.logOpen ∨ ∃ s, e = Ev.logAppend s) := by
  obtain ⟨msg, hmsg⟩ := validate_error_of_violates h
  have hrm : runMain env d = (fatalEvents env msg, 1) := by
    unfold runMain
    rw [hmsg]
  rw [hrm]
  refine ⟨by simp, ?_, ?_, ?_⟩
  · intro e he
    rcases mem_fatalEvents he with rfl | rfl | rfl <;> rfl
  · intro e he
    rcases mem_fatalEvents he with rfl | rfl | rfl <;> rfl
  · intro e he hf
    rcases mem_fatalEvents he with rfl | rfl | rfl
    · simp [isFileIOEv] at hf
    · exact Or.inl rfl
    · exact Or.inr ⟨_, rfl⟩

/-- Witness for the amended claim C6 at the concrete domain `;`. -/
theorem C6_amended_witness :
    (runMain envDefault ";").2 ≠ 0 ∧
    (∀ e ∈ (runMain envDefault ";").1, isNetworkEv e = false) ∧
    (∀ e ∈ (runMain envDefault ";").1, isOutputFileEv e = false) ∧
    (∀ e ∈ (runMain envDefault ";").1, isFileIOEv e = true →
      e = Ev.logOpen ∨ ∃ s, e = Ev.logAppend s) :=
  C6_amended_reject envDefault ";" (Or.inr (Or.inr ⟨';', by decide, by decide⟩))

theorem fatal_marks (env : Env) (msg : String) (hlog : env.logOk = true) :
    Ev.stderrLine (errEntry env.ts msg) ∈ fatalEvents env msg ∧
    Ev.logAppend (errEntry env.ts msg) ∈ fatalEvents env msg := by
  simp [fatalEvents, hlog]

theorem writePhase_no_marks (env : Env) (file : String) (w n : List String)
    (hout : env.outOk = true) (s : String) :
    Ev.stderrLine s ∉ (writePhase env file w n).1 ∧
    Ev.logAppend s ∉ (writePhase env file w n).1 := by
  simp only [writePhase, hout, if_true]
  constructor <;>
  · intro hmem
    simp [List.mem_flatMap] at hmem

theorem queryPhase_iff (env : Env) (file : String) (hlog : env.logOk = true) :
    (queryPhase env file).2 ≠ 0 ↔
      ∃ msg, Ev.stderrLine (errEntry env.ts msg) ∈ (queryPhase env file).1 ∧
        Ev.logAppend (errEntry env.ts msg) ∈ (queryPhase env file).1 := by
  cases h2 : env.conn2Ok
  · simp only [queryPhase, h2, Bool.false_eq_true, if_false]
    constructor
    · intro _
      exact ⟨env.conn2Err, by simp [(fatal_marks env env.conn2Err hlog).1],
        by simp [(fatal_marks env env.conn2Err hlog).2]⟩
    · intro _
      simp
  · cases hq : env.queryOk
    · simp only [queryPhase, h2, hq, if_true, Bool.false_eq_true, if_false]
      constructor
      · intro _
        exact ⟨env.queryErr, by simp [(fatal_marks env env.queryErr hlog).1],
          by simp [(fatal_marks env env.queryErr hlog).2]⟩
      · intro _
        simp
    · cases ho : env.outOk
      · simp only [queryPhase, h2, hq, if_true, writePhase, ho, Bool.false_eq_true,
          if_false]
        constructor
        · intro _
          exact ⟨"Cannot create output file",
            by simp [(fatal_marks env "Cannot create output file" hlog).1],
            by simp [(fatal_marks env "Cannot create output file" hlog).2]⟩
        · intro _
          simp
      · simp only [queryPhase, h2, hq, if_true]
        constructor
        · intro hne
          exfalso
          apply hne
          simp [writePhase, ho]
        · rintro ⟨msg, hm1, hm2⟩
          exfalso
          simp only [List.cons_append, List.nil_append, List.mem_cons] at hm1
          rcases hm1 with h | h | h
          · exact Ev.noConfusion h
          · exact Ev.noConfusion h
          · exact (writePhase_no_marks env file _ _ ho (errEntry env.ts msg)).1 h

/-- Claim C7: every fatal error (validation, connectivity, query, directory
or output-file failure) is reported to standard error and appended to the
error log as `[<timestamp>] ERROR: <message>`, and the process then exits
non-zero; conversely no such report appears on a successful run, so no error
is silently swallowed.  The hypothesis states that the error log itself is
openable, as the specification's append-only log file presumes. -/
theorem C7_fatal_error_reporting (env : Env) (d : String) (hlog : env.logOk = true) :
    (runMain env d).2 ≠ 0 ↔
      ∃ msg, Ev.stderrLine (errEntry env.ts msg) ∈ (runMain env d).1 ∧
        Ev.logAppend (errEntry env.ts msg) ∈ (runMain env d).1 := by
  unfold runMain
  cases hv : validate_domain d with
  | error msg =>
    constructor
    · intro _
      exact ⟨msg, (fatal_marks env msg hlog).1, (fatal_marks env msg hlog).2⟩
    · intro _
      simp
  | ok u =>
    cases u
    cases h1 : env.conn1Ok
    · simp only [Bool.false_eq_true, if_false]
      constructor
      · intro _
        exact ⟨env.conn1Err, by simp [(fatal_marks env env.conn1Err hlog).1],
          by simp [(fatal_marks env env.conn1Err hlog).2]⟩
      · intro _
        simp
    · have hqp := queryPhase_iff env (outputFileName d) hlog
      cases hs : hasSlash (outputFileName d)
      · simp only [if_true, Bool.false_eq_true, if_false]
        constructor
        · intro hne
          obtain ⟨msg, hm1, hm2⟩ := hqp.mp hne
          exact ⟨msg, by simp [hm1], by simp [hm2]⟩
        · rintro ⟨msg, hm1, hm2⟩
          simp only [List.cons_append, List.nil_append, List.mem_cons] at hm1 hm2
          apply hqp.mpr
          refine ⟨msg, ?_, ?_⟩
          · rcases hm1 with h | h
            · exact absurd h (by simp)
            · exact h
          · rcases hm2 with h | h
            · exact absurd h (by simp)
            · exact h
      · cases hd : env.dirOk
        · simp only [if_true, Bool.false_eq_true, if_false]
          constructor
          · intro _
            exact ⟨"Output directory is not writable",
              by simp [(fatal_marks env "Output directory is not writable" hlog).1],
              by simp [(fatal_marks env "Output directory is not writable" hlog).2]⟩
          · intro _
            simp
        · simp only [if_true]
          constructor
          · intro hne
            obtain ⟨msg, hm1, hm2⟩ := hqp.mp hne
            exact ⟨msg, by simp [hm1], by simp [hm2]⟩
          · rintro ⟨msg, hm1, hm2⟩
            simp only [List.cons_append, List.nil_append, List.mem_cons] at hm1 hm2
            apply hqp.mpr
            refine ⟨msg, ?_, ?_⟩
            · rcases hm1 with h | h | h
              · exact absurd h (by simp)
              · exact absurd h (by simp)
              · exact h
            · rcases hm2 with h | h | h
              · exact absurd h (by simp)
              · exact absurd h (by simp)
              · exact h

/-- Witness for claim C7 at a concrete fatal run (invalid domain `;` in the
default environment). -/
theorem C7_witness :
    (runMain envDefault ";").2 ≠ 0 ↔
      ∃ msg, Ev.stderrLine (errEntry envDefault.ts msg) ∈ (runMain envDefault ";").1 ∧
        Ev.logAppend (errEntry envDefault.ts msg) ∈ (runMain envDefault ";").1 :=
  C7_fatal_error_reporting envDefault ";" rfl

theorem validate_ok_allowed {d : String} (h : validate_domain d = Except.ok ()) :
    ∀ c ∈ d.data, allowedChar c = true := by
  unfold validate_domain at h
  by_cases h1 : d.utf8ByteSize = 0 ∨ d.utf8ByteSize > 255
  · rw [if_pos h1] at h
    exact absurd h (by simp)
  · rw [if_neg h1] at h
    by_cases h2 : d.data.any dangerousChar = true
    · rw [if_pos h2] at h
      exact absurd h (by simp)
    · rw [if_neg h2] at h
      by_cases h3 : (! d.data.all allowedChar) = true
      · rw [if_pos h3] at h
        exact absurd h (by simp)
      · have hall : d.data.all allowedChar = true := by
          rcases Bool.eq_false_or_eq_true (d.data.all allowedChar) with hb | hb
          · exact hb
          · rw [hb] at h3
            exact absurd rfl h3
        exact fun c hc => List.all_eq_true.mp hall c hc

theorem no_slash_of_validate {d : String} (h : validate_domain d = Except.ok ()) :
    hasSlash (outputFileName d) = false := by
  have hall := validate_ok_allowed h
  unfold hasSlash outputFileName
  rw [String.data_append, List.any_append]
  have hleft : d.data.any (fun c => c == '/') = false := by
    rw [List.any_eq_false]
    intro c hc
    have hac := hall c hc
    intro hcs
    have : c = '/' := by simpa using hcs
    subst this
    exact absurd hac (by decide)
  have hright : ("_identities.txt" : String).data.any (fun c => c == '/') = false := by
    decide
  rw [hleft, hright]
  rfl

theorem dirCheck_not_in_fatal (env : Env) (msg : String) :
    Ev.dirCheck ∉ fatalEvents env msg := by
  intro hc
  rcases mem_fatalEvents hc with h | h | h <;> exact Ev.noConfusion h

theorem dirCheck_not_in_query (env : Env) (file : String) :
    Ev.dirCheck ∉ (queryPhase env file).1 := by
  intro hc
  cases h2 : env.conn2Ok
  · rw [show queryPhase env file
        = ([Ev.netConnect] ++ fatalEvents env env.conn2Err, 1) by
          unfold queryPhase; rw [h2]; rfl] at hc
    simp only [List.cons_append, List.nil_append, List.mem_cons] at hc
    rcases hc with h | h
    · exact Ev.noConfusion h
    · exact dirCheck_not_in_fatal env env.conn2Err h
  · cases hq : env.queryOk
    · rw [show queryPhase env file
          = ([Ev.netConnect, Ev.netQuery] ++ fatalEvents env env.queryErr, 1) by
            unfold queryPhase; rw [h2, hq]; rfl] at hc
      simp only [List.cons_append, List.nil_append, List.mem_cons] at hc
      rcases hc with h | h | h
      · exact Ev.noConfusion h
      · exact Ev.noConfusion h
      · exact dirCheck_not_in_fatal env env.queryErr h
    · rw [show queryPhase env file
          = ([Ev.netConnect, Ev.netQuery]
              ++ (writePhase env file
                (bubble_sort (partitionIds (dedup (collectRows env.rows))).1)
                (bubble_sort (partitionIds (dedup (collectRows env.rows))).2)).1,
            (writePhase env file
                (bubble_sort (partitionIds (dedup (collectRows env.rows))).1)
                (bubble_sort (partitionIds (dedup (collectRows env.rows))).2)).2) by
            unfold queryPhase; rw [h2, hq]; rfl] at hc
      simp only [List.cons_append, List.nil_append, List.mem_cons] at hc
      rcases hc with h | h | h
      · exact Ev.noConfusion h
      · exact Ev.noConfusion h
      · cases ho : env.outOk
        · rw [show writePhase env file
              (bubble_sort (partitionIds (dedup (collectRows env.rows))).1)
              (bubble_sort (partitionIds (dedup (collectRows env.rows))).2)
              = (fatalEvents env "Cannot create output file", 1) by
                unfold writePhase; rw [ho]; rfl] at h
          exact dirCheck_not_in_fatal env "Cannot create output file" h
        · rw [show (writePhase env file
              (bubble_sort (partitionIds (dedup (collectRows env.rows))).1)
              (bubble_sort (partitionIds (dedup (collectRows env.rows))).2)).1
              = [Ev.fileCreate file]
                ++ (bubble_sort (partitionIds (dedup (collectRows env.rows))).1
                    ++ bubble_sort (partitionIds (dedup (collectRows env.rows))).2).flatMap
                      (fun s => [Ev.stdoutLine s, Ev.fileWrite file s])
                ++ [Ev.stdoutMsg ("Output saved to " ++ file)] by
                unfold writePhase; rw [ho]; rfl] at h
          simp [List.mem_flatMap] at h

/-- Claim C9: for a valid domain whose query succeeds with an empty result
set, the output file is still created, receives zero identity lines, and the
process exits with status 0. -/
theorem C9_empty_result (env : Env) (d : String)
    (hval : validate_domain d = Except.ok ())
    (h1 : env.conn1Ok = true) (h2 : env.conn2Ok = true) (h3 : env.queryOk = true)
    (hrows : env.rows = []) (hout : env.outOk = true) :
    (runMain env d).2 = 0 ∧
    Ev.fileCreate (outputFileName d) ∈ (runMain env d).1 ∧
    fileLines (runMain env d).1 = [] := by
  have hs := no_slash_of_validate hval
  have hq : queryPhase env (outputFileName d)
      = ([Ev.netConnect, Ev.netQuery]
          ++ (writePhase env (outputFileName d) [] []).1,
        (writePhase env (outputFileName d) [] []).2) := by
    unfold queryPhase
    rw [h2, h3, hrows]
    rfl
  have hw : writePhase env (outputFileName d) [] []
      = ([Ev.fileCreate (outputFileName d),
          Ev.stdoutMsg ("Output saved to " ++ outputFileName d)], 0) := by
    unfold writePhase
    rw [hout]
    rfl
  have hrm : runMain env d
      = ([Ev.netConnect, Ev.netConnect, Ev.netQuery,
          Ev.fileCreate (outputFileName d),
          Ev.stdoutMsg ("Output saved to " ++ outputFileName d)], 0) := by
    unfold runMain
    rw [hval, h1, hs, hq, hw]
    rfl
  rw [hrm]
  refine ⟨rfl, by simp, rfl⟩

/-- Witness for claim C9 at the concrete domain `example.com` in the default
all-successful environment with an empty result set. -/
theorem C9_witness :
    (runMain envDefault "example.com").2 = 0 ∧
    Ev.fileCreate (outputFileName "example.com") ∈ (runMain envDefault "example.com").1 ∧
    fileLines (runMain envDefault "example.com").1 = [] :=
  C9_empty_result envDefault "example.com" rfl rfl rfl rfl rfl rfl

/-- Claim C10: for every domain that passes validation, the output path
`<domain>_identities.txt` contains no slash, so the directory
existence/writability check is never executed (no `stat`/`access` event ever
appears in the trace, and the run is wholly independent of the directory
check's outcome `dirOk`); the output file is therefore always created in the
current working directory. -/
theorem C10_dir_check_unreachable (d : String)
    (hval : validate_domain d = Except.ok ()) :
    hasSlash (outputFileName d) = false ∧
    (∀ env : Env, Ev.dirCheck ∉ (runMain env d).1) ∧
    (∀ (ts : String) (lo c1 : Bool) (c1e : String) (d1 d2 c2 : Bool) (c2e : String)
        (q : Bool) (qe : String) (rows : List (Option String)) (oo : Bool),
        runMain ⟨ts, lo, c1, c1e, d1, c2, c2e, q, qe, rows, oo⟩ d
          = runMain ⟨ts, lo, c1, c1e, d2, c2, c2e, q, qe, rows, oo⟩ d) := by
  have hs := no_slash_of_validate hval
  refine ⟨hs, ?_, ?_⟩
  · intro env hc
    rw [show runMain env d
        = (if env.conn1Ok then
            ([Ev.netConnect] ++ (queryPhase env (outputFileName d)).1,
              (queryPhase env (outputFileName d)).2)
          else ([Ev.netConnect] ++ fatalEvents env env.conn1Err, 1)) by
          unfold runMain; rw [hval, hs]; rfl] at hc
    cases h1 : env.conn1Ok
    · rw [h1] at hc
      simp only [Bool.false_eq_true, if_false, List.cons_append, List.nil_append,
        List.mem_cons] at hc
      rcases hc with h | h
      · exact Ev.noConfusion h
      · exact dirCheck_not_in_fatal env env.conn1Err h
    · rw [h1] at hc
      simp only [if_true, List.cons_append, List.nil_append, List.mem_cons] at hc
      rcases hc with h | h
      · exact Ev.noConfusion h
      · exact dirCheck_not_in_query env (outputFileName d) h
  · intro ts lo c1 c1e d1 d2 c2 c2e q qe rows oo
    unfold runMain
    rw [hval, hs]
    rfl

/-- Witness for claim C10 at the concrete domain `example.com`. -/
theorem C10_witness :
    hasSlash (outputFileName "example.com") = false ∧
    (∀ env : Env, Ev.dirCheck ∉ (runMain env "example.com").1) ∧
    (∀ (ts : String) (lo c1 : Bool) (c1e : String) (d1 d2 c2 : Bool) (c2e : String)
        (q : Bool) (qe : String) (rows : List (Option String)) (oo : Bool),
        runMain ⟨ts, lo, c1, c1e, d1, c2, c2e, q, qe, rows, oo⟩ "example.com"
          = runMain ⟨ts, lo, c1, c1e, d2, c2, c2e, q, qe, rows, oo⟩ "example.com") :=
  C10_dir_check_unreachable "example.com" rfl

end CrtSearch
